import Mathlib

/-!
Verification development for the "Derivative of Graphs" temporal-graph engine
(`backend/graph_logic.py`).

The embedding below models, over `Nat` vertex identifiers:
* the `TemporalGraph` container (vertex list, snapshot edge-lists);
* `get_snapshot_graph`, including the library-level behaviour of `nx.Graph`
  (node deduplication in insertion order, undirected edge deduplication,
  implicit addition of edge endpoints as nodes);
* the differential operator `compute_differential` with its window
  validation, and `compute_static_expansion`;
* `find_eternal_twins` over `itertools.combinations` of the vertex list;
* `union_graph_edges` (a Python `set`, modelled as a `Finset`);
* the min-degree tree-width heuristic `treewidth_min_degree` of
  `networkx.algorithms.approximation.treewidth` (elimination with clique
  fill-in, abort once the remaining graph is complete or empty, width =
  max over bags of size − 1), and the aggregators
  `tree_width_of_differential` / `differential_tree_width` built on it.
  The library breaks ties between equal-minimum-degree nodes through a
  lazy heap; here a deterministic representative (first minimum in the
  current node order) is chosen, which no verified statement depends on.

Fallible operations (`raise ValueError` in the source) are embedded with
`Except GraphError`, the error constructors carrying the same diagnostic
fields the exception messages interpolate.
-/

namespace DerivGraphs

/-- `TemporalGraph.__init__`: a vertex list and a list of snapshot
edge-lists, each edge an ordered pair as stored in Python tuples. -/
structure TemporalGraph where
  vertices : List Nat
  snapshots : List (List (Nat × Nat))

/-- `lifetime` property: `len(self.snapshots)`. -/
def TemporalGraph.lifetime (g : TemporalGraph) : Nat := g.snapshots.length

/-- Two stored edge tuples denote the same undirected edge. -/
def undirEq (e f : Nat × Nat) : Bool :=
  (e.1 == f.1 && e.2 == f.2) || (e.1 == f.2 && e.2 == f.1)

/-- Accumulator pass of `nx.Graph.add_edges_from`: keep the first
occurrence of every undirected edge, drop later duplicates. -/
def dedupEdgesAux (acc : List (Nat × Nat)) :
    List (Nat × Nat) → List (Nat × Nat)
  | [] => acc
  | e :: rest =>
    if acc.any (fun f => undirEq f e) then dedupEdgesAux acc rest
    else dedupEdgesAux (acc ++ [e]) rest

/-- The undirected edge set a `nx.Graph` retains from an edge list. -/
def dedupEdges (es : List (Nat × Nat)) : List (Nat × Nat) :=
  dedupEdgesAux [] es

/-- `nx.Graph.add_node`: append a node unless already present. -/
def addNode {α : Type} [DecidableEq α] (ns : List α) (v : α) : List α :=
  if v ∈ ns then ns else ns ++ [v]

/-- `add_nodes_from` then `add_edges_from`: node list of a `nx.Graph`
built from explicit nodes followed by edge endpoints. -/
def nxNodes {α : Type} [DecidableEq α] (nodes : List α) (edges : List (α × α)) :
    List α :=
  edges.foldl (fun ns e => addNode (addNode ns e.1) e.2) (nodes.foldl addNode [])

/-- `set(G.neighbors(u))`: the set of opposite endpoints of edges at `u`
(a self-loop contributes `u` itself). -/
def nbrSet {α : Type} [DecidableEq α] (es : List (α × α)) (u : α) : Finset α :=
  es.foldr
    (fun e s => if e.1 = u then insert e.2 s
                else if e.2 = u then insert e.1 s else s) ∅

/-- The observable part of the `nx.Graph` returned by
`get_snapshot_graph`: its node list and undirected edge list. -/
structure SnapGraph where
  nodes : List Nat
  edges : List (Nat × Nat)
deriving DecidableEq, Repr

/-- `TemporalGraph.get_snapshot_graph`: nodes from `self.vertices`; edges
from `self.snapshots[t]` only when `0 <= t < self.lifetime`, silently
yielding an edgeless graph otherwise. -/
def TemporalGraph.get_snapshot_graph (g : TemporalGraph) (t : Int) : SnapGraph :=
  if 0 ≤ t ∧ t < (g.lifetime : Int) then
    { nodes := nxNodes g.vertices (g.snapshots.getD t.toNat [])
      edges := dedupEdges (g.snapshots.getD t.toNat []) }
  else
    { nodes := nxNodes g.vertices [], edges := [] }

/-- Error kinds of the engine; constructors carry the diagnostic fields
interpolated into the corresponding `ValueError` messages. -/
inductive GraphError where
  | invalidWindow (t delta : Int) (lifetime : Nat)
  | invalidDelta (delta : Int) (lifetime : Nat)
deriving DecidableEq, Repr

/-- The dict returned by `compute_differential`. -/
structure Differential where
  nodes : List (Nat × Nat)
  black_edges : List ((Nat × Nat) × (Nat × Nat))
  red_edges : List ((Nat × Nat) × (Nat × Nat))
deriving DecidableEq, Repr

/-- Loop body of `compute_differential` after validation, at the
already-nonnegative window `[t0, t0 + dn - 1]`.  The Python loop fills
the three lists interleaved per `time`; their per-list contents are the
concatenations below.  (`time < t + delta - 1` is rendered as
`time + 1 < t0 + dn`, equivalent for `dn ≥ 1`.) -/
def TemporalGraph.diffCore (g : TemporalGraph) (t0 dn : Nat) : Differential :=
  let times := (List.range dn).map (fun i => t0 + i)
  { nodes := times.flatMap (fun time => g.vertices.map (fun v => (v, time)))
    black_edges := times.flatMap (fun time =>
      (g.get_snapshot_graph (time : Int)).edges.map
        (fun e => ((e.1, time), (e.2, time))))
    red_edges := (times.filter (fun time => time + 1 < t0 + dn)).flatMap
      (fun time => g.vertices.map (fun v => ((v, time), (v, time + 1)))) }

/-- `TemporalGraph.compute_differential`: window validation raising
`ValueError` (here `GraphError.invalidWindow`), then the expansion. -/
def TemporalGraph.compute_differential (g : TemporalGraph) (t delta : Int) :
    Except GraphError Differential :=
  if t < 0 ∨ delta < 1 ∨ (g.lifetime : Int) ≤ t + delta - 1 then
    .error (.invalidWindow t delta g.lifetime)
  else
    .ok (g.diffCore t.toNat delta.toNat)

/-- `compute_static_expansion`: literally `compute_differential(0, lifetime)`. -/
def TemporalGraph.compute_static_expansion (g : TemporalGraph) :
    Except GraphError Differential :=
  g.compute_differential 0 (g.lifetime : Int)

/-- Open neighbourhood `set(G_t.neighbors(u))` in `get_snapshot_graph t`. -/
def TemporalGraph.snapNbrs (g : TemporalGraph) (t : Nat) (u : Nat) :
    Finset Nat :=
  nbrSet (g.get_snapshot_graph (t : Int)).edges u

/-- The inner loop of `find_eternal_twins`: neighbourhoods agree at every
snapshot (the Python short-circuit does not change the value). -/
def TemporalGraph.isTwinPair (g : TemporalGraph) (u v : Nat) : Bool :=
  (List.range g.lifetime).all (fun t => decide (g.snapNbrs t u = g.snapNbrs t v))

/-- `itertools.combinations(l, 2)` in order. -/
def combinations2 {α : Type} : List α → List (α × α)
  | [] => []
  | x :: xs => (xs.map (fun y => (x, y))) ++ combinations2 xs

/-- `TemporalGraph.find_eternal_twins`. -/
def TemporalGraph.find_eternal_twins (g : TemporalGraph) :
    List (Nat × Nat) :=
  (combinations2 g.vertices).filter (fun p => g.isTwinPair p.1 p.2)

/-- `snapshot_edge_counts`: raw lengths of the stored edge-lists. -/
def TemporalGraph.snapshot_edge_counts (g : TemporalGraph) : List Nat :=
  g.snapshots.map List.length

/-- `union_graph_edges`: a Python `set` of `(min u v, max u v)` pairs over
all snapshots, modelled as the `Finset` it denotes (the source returns
`list(all_edges)` whose order is the set's unspecified iteration order). -/
def TemporalGraph.union_graph_edges (g : TemporalGraph) : Finset (Nat × Nat) :=
  g.snapshots.foldl
    (fun s es => es.foldl (fun s e => insert (min e.1 e.2, max e.1 e.2) s) s) ∅

/-- `{n: set(G[n]) - {n} for n in G}`: the working adjacency structure of
`networkx...treewidth_decomp`, keyed in node order. -/
def mkAdj {α : Type} [DecidableEq α] (nodes : List α) (edges : List (α × α)) :
    List (α × Finset α) :=
  (nxNodes nodes edges).map (fun n => (n, (nbrSet edges n).erase n))

/-- `MinDegreeHeuristic.best_node`: a minimum-degree node with its current
neighbour set, or `none` when the graph is empty or already complete
(minimum degree = node count − 1).  Ties go to the first minimum in node
order (the library's lazy heap picks some minimum; no claim depends on
which). -/
def pickMinDegree {α : Type} : List (α × Finset α) → Option (α × Finset α)
  | [] => none
  | a :: rest =>
    let best := rest.foldl (fun b p => if p.2.card < b.2.card then p else b) a
    if best.2.card = rest.length then none else some best

/-- One elimination step of `treewidth_decomp`: connect the neighbours of
`v` pairwise (fill-in), delete `v` from the structure. -/
def eliminate {α : Type} [DecidableEq α] (adj : List (α × Finset α)) (v : α)
    (nbrs : Finset α) : List (α × Finset α) :=
  (adj.filter (fun p => if p.1 = v then false else true)).map
    (fun p => if p.1 ∈ nbrs then (p.1, ((p.2 ∪ nbrs.erase p.1).erase v)) else p)

/-- The elimination loop of `treewidth_decomp`, fuelled by the initial
node count (each step removes exactly one node, so the natural abort via
`pickMinDegree` always fires first).  Returns the elimination stack in
push order and the remaining structure (the `first_bag`). -/
def elimLoop {α : Type} [DecidableEq α] :
    Nat → List (α × Finset α) → List (α × Finset α) × List (α × Finset α)
  | 0, adj => ([], adj)
  | fuel + 1, adj =>
    match pickMinDegree adj with
    | none => ([], adj)
    | some (v, nbrs) =>
      let res := elimLoop fuel (eliminate adj v nbrs)
      ((v, nbrs) :: res.1, res.2)

/-- `treewidth_min_degree(G)[0]`: `len(first_bag) - 1` joined with, per
eliminated node, `len(bag) - 1` for its bag `nbrs ∪ {node}`. -/
def treewidth_min_degree {α : Type} [DecidableEq α] (nodes : List α)
    (edges : List (α × α)) : Int :=
  (elimLoop (mkAdj nodes edges).length (mkAdj nodes edges)).1.foldl
    (fun tw p => max tw (((insert p.1 p.2).card : Int) - 1))
    ((((elimLoop (mkAdj nodes edges).length (mkAdj nodes edges)).2).length : Int) - 1)

/-- `tree_width_of_differential`: tree-width heuristic applied to
`_differential_as_nx` (nodes, then black and red edges, undirected). -/
def TemporalGraph.tree_width_of_differential (g : TemporalGraph) (t delta : Int) :
    Except GraphError Int :=
  (g.compute_differential t delta).map (fun d =>
    treewidth_min_degree d.nodes (d.black_edges ++ d.red_edges))

/-- The value `tree_width_of_differential` yields on an already-valid
window `[t0, t0 + dn - 1]` (a derived abbreviation for statements). -/
def TemporalGraph.twCore (g : TemporalGraph) (t0 dn : Nat) : Int :=
  treewidth_min_degree (g.diffCore t0 dn).nodes
    ((g.diffCore t0 dn).black_edges ++ (g.diffCore t0 dn).red_edges)

/-- The dict returned by `differential_tree_width`. -/
structure DtwResult where
  dtw : Int
  per_t : List (Nat × Int)
deriving DecidableEq, Repr

/-- `max(...) if per_t else 0`. -/
def maxOr0 : List Int → Int
  | [] => 0
  | x :: xs => xs.foldl max x

/-- The `for t in range(...)` loop of `differential_tree_width`,
propagating the first failure as the Python exception would. -/
def TemporalGraph.collectTW (g : TemporalGraph) (delta : Int) :
    List Nat → Except GraphError (List (Nat × Int))
  | [] => .ok []
  | t :: ts =>
    match g.tree_width_of_differential (t : Int) delta with
    | .error e => .error e
    | .ok tw =>
      match g.collectTW delta ts with
      | .error e => .error e
      | .ok rest => .ok ((t, tw) :: rest)

/-- `TemporalGraph.differential_tree_width`: delta validation raising
`ValueError` (here `GraphError.invalidDelta`), the per-`t` series, and
its maximum. -/
def TemporalGraph.differential_tree_width (g : TemporalGraph) (delta : Int) :
    Except GraphError DtwResult :=
  if delta < 1 ∨ (g.lifetime : Int) < delta then
    .error (.invalidDelta delta g.lifetime)
  else
    match g.collectTW delta (List.range (g.lifetime - delta.toNat + 1)) with
    | .error e => .error e
    | .ok per_t => .ok { dtw := maxOr0 (per_t.map Prod.snd), per_t := per_t }

/-! ### Helper lemmas -/

lemma sum_map_const {α : Type} (l : List α) (c : Nat) :
    (l.map (fun _ => c)).sum = l.length * c := by
  induction l with
  | nil => simp
  | cons x xs ih => simp [ih, Nat.succ_mul, Nat.add_comm]

lemma dedupEdgesAux_eq_append :
    ∀ (es acc : List (Nat × Nat)),
      (∀ e ∈ es, ∀ a ∈ acc, undirEq a e = false) →
      es.Pairwise (fun e f => undirEq e f = false) →
      dedupEdgesAux acc es = acc ++ es := by
  intro es
  induction es with
  | nil => intro acc _ _; simp [dedupEdgesAux]
  | cons e rest ih =>
    intro acc hacc hpw
    have h1 : acc.any (fun f => undirEq f e) = false := by
      simp only [List.any_eq_false]
      intro a ha
      simp [hacc e (by simp) a ha]
    rw [dedupEdgesAux, h1]
    simp only [Bool.false_eq_true, if_false]
    rw [ih (acc ++ [e]) ?_ hpw.of_cons]
    · simp
    · intro f hf a ha
      rcases List.mem_append.mp ha with h | h
      · exact hacc f (List.mem_cons_of_mem _ hf) a h
      · have he : a = e := by simpa using h
        subst he
        exact (List.pairwise_cons.mp hpw).1 f hf

lemma dedupEdges_eq_self {es : List (Nat × Nat)}
    (h : es.Pairwise fun e f => undirEq e f = false) : dedupEdges es = es := by
  simpa [dedupEdges] using dedupEdgesAux_eq_append es [] (by simp) h

lemma mem_dedupEdgesAux :
    ∀ (es acc : List (Nat × Nat)) (e : Nat × Nat),
      e ∈ dedupEdgesAux acc es → e ∈ acc ∨ e ∈ es := by
  intro es
  induction es with
  | nil => intro acc e h; simp [dedupEdgesAux] at h; exact Or.inl h
  | cons f rest ih =>
    intro acc e h
    rw [dedupEdgesAux] at h
    by_cases hany : acc.any (fun a => undirEq a f) = true
    · simp only [hany, if_true] at h
      rcases ih acc e h with h' | h'
      · exact Or.inl h'
      · exact Or.inr (List.mem_cons_of_mem _ h')
    · simp only [hany, if_false] at h
      rcases ih (acc ++ [f]) e h with h' | h'
      · rcases List.mem_append.mp h' with h'' | h''
        · exact Or.inl h''
        · exact Or.inr (by simpa using Or.inl (by simpa using h''))
      · exact Or.inr (List.mem_cons_of_mem _ h')

lemma mem_of_mem_dedupEdges {es : List (Nat × Nat)} {e : Nat × Nat}
    (h : e ∈ dedupEdges es) : e ∈ es := by
  rcases mem_dedupEdgesAux es [] e h with h' | h'
  · simp at h'
  · exact h'

lemma getD_mem_snapshots {g : TemporalGraph} {j : Nat} (h : j < g.lifetime) :
    g.snapshots.getD j [] ∈ g.snapshots := by
  rw [List.getD_eq_getElem _ _ h]
  exact List.getElem_mem h

lemma compute_differential_ok {g : TemporalGraph} {t delta : Int} {d : Differential}
    (h : g.compute_differential t delta = .ok d) :
    0 ≤ t ∧ 1 ≤ delta ∧ t.toNat + delta.toNat ≤ g.lifetime ∧
      d = g.diffCore t.toNat delta.toNat := by
  unfold TemporalGraph.compute_differential at h
  split at h
  · exact absurd h (by simp)
  · rename_i hc
    push_neg at hc
    obtain ⟨h0, h1, h2⟩ := hc
    simp only [Except.ok.injEq] at h
    exact ⟨h0, h1, by omega, h.symm⟩

lemma get_snapshot_edges_of_lt {g : TemporalGraph} {time : Nat}
    (h : time < g.lifetime) :
    (g.get_snapshot_graph (time : Int)).edges =
      dedupEdges (g.snapshots.getD time []) := by
  have hc : (0:Int) ≤ (time:Int) ∧ (time:Int) < (g.lifetime:Int) := by omega
  simp [TemporalGraph.get_snapshot_graph, hc, Int.toNat_natCast]

lemma diffCore_nodes_length (g : TemporalGraph) (t0 dn : Nat) :
    (g.diffCore t0 dn).nodes.length = dn * g.vertices.length := by
  simp only [TemporalGraph.diffCore, List.length_flatMap, List.map_map]
  have step := List.map_congr_left (l := List.range dn)
    (f := (List.length ∘ fun time => List.map (fun v => (v, time)) g.vertices)
      ∘ fun i => t0 + i)
    (g := fun _ => g.vertices.length) (fun i _ => by simp)
  rw [step, sum_map_const, List.length_range]

lemma diffCore_mem_nodes (g : TemporalGraph) (t0 dn : Nat) (v : Nat) (time : Nat) :
    (v, time) ∈ (g.diffCore t0 dn).nodes ↔
      v ∈ g.vertices ∧ t0 ≤ time ∧ time < t0 + dn := by
  simp only [TemporalGraph.diffCore, List.mem_flatMap, List.mem_map,
    List.mem_range, Prod.mk.injEq]
  constructor
  · rintro ⟨tm, ⟨i, hi, rfl⟩, w, hw, rfl, rfl⟩
    exact ⟨hw, by omega, by omega⟩
  · rintro ⟨hv, h1, h2⟩
    exact ⟨time, ⟨time - t0, by omega, by omega⟩, v, hv, rfl, rfl⟩

lemma diffCore_black_length (g : TemporalGraph) {t0 dn : Nat}
    (hwf : ∀ es ∈ g.snapshots, es.Pairwise fun e f => undirEq e f = false)
    (hle : t0 + dn ≤ g.lifetime) :
    (g.diffCore t0 dn).black_edges.length
      = ((List.range dn).map (fun i => (g.snapshots.getD (t0 + i) []).length)).sum := by
  simp only [TemporalGraph.diffCore, List.length_flatMap, List.map_map]
  apply congrArg List.sum
  apply List.map_congr_left
  intro i hi
  have hlt : t0 + i < g.lifetime := by
    have := List.mem_range.mp hi
    omega
  simp only [Function.comp]
  rw [get_snapshot_edges_of_lt hlt,
    dedupEdges_eq_self (hwf _ (getD_mem_snapshots hlt)), List.length_map]

lemma range_filter_succ_lt (dn : Nat) :
    (List.range dn).filter (fun i => decide (i + 1 < dn)) = List.range (dn - 1) := by
  cases dn with
  | zero => simp
  | succ m =>
    rw [List.range_succ, List.filter_append]
    have h1 : (List.range m).filter (fun i => decide (i + 1 < m + 1)) = List.range m :=
      List.filter_eq_self.mpr (fun a ha => by
        simp only [decide_eq_true_eq]
        have := List.mem_range.mp ha
        omega)
    have h2 : ([m].filter (fun i => decide (i + 1 < m + 1))) = [] := by simp
    rw [h1, h2]
    simp

lemma diffCore_red_length (g : TemporalGraph) (t0 dn : Nat) :
    (g.diffCore t0 dn).red_edges.length = (dn - 1) * g.vertices.length := by
  simp only [TemporalGraph.diffCore, List.length_flatMap, List.map_map]
  rw [List.filter_map]
  have hf : ((fun time => decide (time + 1 < t0 + dn)) ∘ fun i => t0 + i)
      = fun i => decide (i + 1 < dn) := by
    funext i
    simp only [Function.comp]
    by_cases h : i + 1 < dn <;> simp [h] <;> omega
  rw [hf, range_filter_succ_lt, List.map_map]
  have step := List.map_congr_left (l := List.range (dn - 1))
    (f := (List.length ∘ fun time =>
        List.map (fun v => ((v, time), (v, time + 1))) g.vertices) ∘ fun i => t0 + i)
    (g := fun _ => g.vertices.length) (fun i _ => by simp)
  rw [step, sum_map_const, List.length_range]

lemma snapshot_edge_counts_getD {g : TemporalGraph} {j : Nat} (h : j < g.lifetime) :
    g.snapshot_edge_counts.getD j 0 = (g.snapshots.getD j []).length := by
  have h' : j < g.snapshot_edge_counts.length := by
    simpa [TemporalGraph.snapshot_edge_counts] using h
  rw [List.getD_eq_getElem _ _ h', List.getD_eq_getElem _ _ h]
  simp [TemporalGraph.snapshot_edge_counts]

/-! ### C2 -/

/-- C2: `compute_differential(t, delta)` yields the `InvalidWindow` error
carrying `t`, `delta` and the lifetime exactly when `t < 0`, `delta < 1`
or `t + delta - 1 ≥ lifetime`, and returns an expansion (never a partial
result) exactly when the precondition holds. -/
theorem C2_window_validation (g : TemporalGraph) (t delta : Int) :
    (g.compute_differential t delta =
        .error (.invalidWindow t delta g.lifetime) ↔
      (t < 0 ∨ delta < 1 ∨ (g.lifetime : Int) ≤ t + delta - 1))
    ∧ ((∃ d, g.compute_differential t delta = .ok d) ↔
      ¬(t < 0 ∨ delta < 1 ∨ (g.lifetime : Int) ≤ t + delta - 1)) := by
  by_cases h : t < 0 ∨ delta < 1 ∨ (g.lifetime : Int) ≤ t + delta - 1 <;>
    simp [TemporalGraph.compute_differential, h]

/-! ### C5 -/

/-- C5: `compute_static_expansion` is literally
`compute_differential(0, lifetime)`, and it fails (with the corresponding
`InvalidWindow` error) exactly when the lifetime is `0`. -/
theorem C5_static_expansion (g : TemporalGraph) :
    g.compute_static_expansion = g.compute_differential 0 (g.lifetime : Int)
    ∧ (g.compute_static_expansion =
        .error (.invalidWindow 0 (g.lifetime : Int) g.lifetime) ↔
      g.lifetime = 0) := by
  refine ⟨rfl, ?_⟩
  by_cases h : g.lifetime = 0
  · have hc : (0:Int) < 0 ∨ (g.lifetime : Int) < 1 ∨
        (g.lifetime : Int) ≤ 0 + (g.lifetime : Int) - 1 := by
      right; left; simp [h]
    simp [TemporalGraph.compute_static_expansion,
      TemporalGraph.compute_differential, hc, h]
  · have hc : ¬((0:Int) < 0 ∨ (g.lifetime : Int) < 1 ∨
        (g.lifetime : Int) ≤ 0 + (g.lifetime : Int) - 1) := by
      omega
    simp [TemporalGraph.compute_static_expansion,
      TemporalGraph.compute_differential, hc, h]

/-! ### C1 -/

/-- C1: for every valid window `(t, delta)` on a temporal graph whose
snapshots hold no parallel (undirected-duplicate) edges,
`compute_differential` returns exactly `|V| * delta` nodes, a number of
black edges equal to the sum of the snapshot edge counts over the window
`[t, t+delta-1]`, and exactly `(delta - 1) * |V|` red edges. -/
theorem C1_expansion_counts (g : TemporalGraph) (t delta : Int) (d : Differential)
    (hwf : ∀ es ∈ g.snapshots, es.Pairwise fun e f => undirEq e f = false)
    (h : g.compute_differential t delta = .ok d) :
    d.nodes.length = g.vertices.length * delta.toNat
    ∧ d.black_edges.length =
        ((List.range delta.toNat).map
          (fun i => g.snapshot_edge_counts.getD (t.toNat + i) 0)).sum
    ∧ d.red_edges.length = (delta.toNat - 1) * g.vertices.length := by
  obtain ⟨h0, h1, hle, rfl⟩ := compute_differential_ok h
  refine ⟨?_, ?_, ?_⟩
  · rw [diffCore_nodes_length, Nat.mul_comm]
  · rw [diffCore_black_length g hwf hle]
    apply congrArg List.sum
    apply List.map_congr_left
    intro i hi
    have hlt : t.toNat + i < g.lifetime := by
      have := List.mem_range.mp hi
      omega
    rw [snapshot_edge_counts_getD hlt]
  · exact diffCore_red_length g _ _

/-- Witness for C1 at the spec's scenario 1. -/
theorem C1_expansion_counts_witness :
    (∀ es ∈ (TemporalGraph.mk [0,1,2] [[(0,1)], [(1,2)]]).snapshots,
        es.Pairwise fun e f => undirEq e f = false)
    ∧ ((TemporalGraph.mk [0,1,2] [[(0,1)], [(1,2)]]).compute_differential 0 2 =
        .ok ⟨[(0,0),(1,0),(2,0),(0,1),(1,1),(2,1)],
             [((0,0),(1,0)), ((1,1),(2,1))],
             [((0,0),(0,1)), ((1,0),(1,1)), ((2,0),(2,1))]⟩)
    ∧ ((6:Nat) = 3 * (2:Int).toNat
      ∧ (2:Nat) =
          ((List.range (2:Int).toNat).map
            (fun i => (TemporalGraph.mk [0,1,2]
              [[(0,1)], [(1,2)]]).snapshot_edge_counts.getD ((0:Int).toNat + i) 0)).sum
      ∧ (3:Nat) = ((2:Int).toNat - 1) * 3) :=
  ⟨by decide, rfl,
    C1_expansion_counts (TemporalGraph.mk [0,1,2] [[(0,1)], [(1,2)]]) 0 2
      ⟨[(0,0),(1,0),(2,0),(0,1),(1,1),(2,1)],
       [((0,0),(1,0)), ((1,1),(2,1))],
       [((0,0),(0,1)), ((1,0),(1,1)), ((2,0),(2,1))]⟩ (by decide) rfl⟩

/-! ### C10 -/

/-- C10: on a temporal graph whose snapshot edges have both endpoints in
the vertex list, every successful `compute_differential` result is
well-formed: its node list holds exactly the window's time-vertices,
every black edge joins two listed nodes at one common time, and every red
edge joins the two copies of one base vertex at consecutive times inside
the window, both listed. -/
theorem C10_expansion_wellformed (g : TemporalGraph) (t delta : Int)
    (d : Differential)
    (hwf : ∀ es ∈ g.snapshots, ∀ e ∈ es, e.1 ∈ g.vertices ∧ e.2 ∈ g.vertices)
    (h : g.compute_differential t delta = .ok d) :
    (∀ v time, (v, time) ∈ d.nodes ↔
      v ∈ g.vertices ∧ t.toNat ≤ time ∧ time < t.toNat + delta.toNat)
    ∧ (∀ a b, (a, b) ∈ d.black_edges →
        a.2 = b.2 ∧ a ∈ d.nodes ∧ b ∈ d.nodes)
    ∧ (∀ a b, (a, b) ∈ d.red_edges →
        a.1 = b.1 ∧ b.2 = a.2 + 1 ∧ t.toNat ≤ a.2 ∧ b.2 < t.toNat + delta.toNat
        ∧ a ∈ d.nodes ∧ b ∈ d.nodes) := by
  obtain ⟨h0, h1, hle, rfl⟩ := compute_differential_ok h
  refine ⟨fun v time => diffCore_mem_nodes g _ _ v time, ?_, ?_⟩
  · intro a b hab
    simp only [TemporalGraph.diffCore, List.mem_flatMap, List.mem_map,
      List.mem_range] at hab
    obtain ⟨tm, ⟨i, hi, rfl⟩, e, he, heq⟩ := hab
    have hlt : t.toNat + i < g.lifetime := by omega
    rw [get_snapshot_edges_of_lt hlt] at he
    have he' := mem_of_mem_dedupEdges he
    have hv := hwf _ (getD_mem_snapshots hlt) e he'
    obtain ⟨rfl, rfl⟩ : ((e.1, t.toNat + i) = a ∧ (e.2, t.toNat + i) = b) := by
      simpa [Prod.ext_iff] using heq
    refine ⟨rfl, ?_, ?_⟩ <;>
      rw [diffCore_mem_nodes] <;>
      exact ⟨by tauto, by omega, by omega⟩
  · intro a b hab
    simp only [TemporalGraph.diffCore, List.mem_flatMap, List.mem_map,
      List.mem_filter, List.mem_range] at hab
    obtain ⟨tm, ⟨⟨i, hi, rfl⟩, htm⟩, v, hv, heq⟩ := hab
    have hcond : t.toNat + i + 1 < t.toNat + delta.toNat := by
      simpa using htm
    obtain ⟨rfl, rfl⟩ : ((v, t.toNat + i) = a ∧ (v, t.toNat + i + 1) = b) := by
      simpa [Prod.ext_iff] using heq
    refine ⟨rfl, rfl, by omega, by omega, ?_, ?_⟩ <;>
      rw [diffCore_mem_nodes] <;>
      exact ⟨hv, by omega, by omega⟩

/-- Witness for C10: a node-membership instance at the spec's scenario 1,
obtained from the well-formedness theorem. -/
theorem C10_expansion_wellformed_witness :
    ((0:Nat), (0:Nat)) ∈
      (Differential.mk [(0,0),(1,0),(2,0),(0,1),(1,1),(2,1)]
        [((0,0),(1,0)), ((1,1),(2,1))]
        [((0,0),(0,1)), ((1,0),(1,1)), ((2,0),(2,1))]).nodes :=
  ((C10_expansion_wellformed (TemporalGraph.mk [0,1,2] [[(0,1)], [(1,2)]]) 0 2
      ⟨[(0,0),(1,0),(2,0),(0,1),(1,1),(2,1)],
       [((0,0),(1,0)), ((1,1),(2,1))],
       [((0,0),(0,1)), ((1,0),(1,1)), ((2,0),(2,1))]⟩
      (by decide) rfl).1 0 0).mpr (by decide)

/-! ### Undirected-edge equivalence and node-list helpers -/

lemma undirEq_iff {e f : Nat × Nat} :
    undirEq e f = true ↔ (e.1 = f.1 ∧ e.2 = f.2) ∨ (e.1 = f.2 ∧ e.2 = f.1) := by
  simp [undirEq, Bool.or_eq_true, Bool.and_eq_true, beq_iff_eq]

lemma undirEq_trans {e f k : Nat × Nat} (h1 : undirEq e f = true)
    (h2 : undirEq f k = true) : undirEq e k = true := by
  obtain ⟨a, b⟩ := e
  obtain ⟨c, d⟩ := f
  obtain ⟨x, y⟩ := k
  rw [undirEq_iff] at h1 h2 ⊢
  dsimp only at h1 h2 ⊢
  omega

lemma exists_undirEq_dedupEdgesAux :
    ∀ (es acc : List (Nat × Nat)) (f : Nat × Nat),
      (∃ e ∈ dedupEdgesAux acc es, undirEq e f = true) ↔
      ((∃ e ∈ acc, undirEq e f = true) ∨ (∃ e ∈ es, undirEq e f = true)) := by
  intro es
  induction es with
  | nil => intro acc f; simp [dedupEdgesAux]
  | cons a rest ih =>
    intro acc f
    rw [dedupEdgesAux]
    by_cases hany : acc.any (fun b => undirEq b a) = true
    · rw [if_pos hany, ih]
      have hextra : undirEq a f = true → ∃ e ∈ acc, undirEq e f = true := by
        intro haf
        obtain ⟨b, hb, hba⟩ := List.any_eq_true.mp hany
        exact ⟨b, hb, undirEq_trans hba haf⟩
      simp only [List.mem_cons]
      constructor
      · rintro (h | ⟨e, he, hef⟩)
        · exact Or.inl h
        · exact Or.inr ⟨e, Or.inr he, hef⟩
      · rintro (h | ⟨e, (rfl | he), hef⟩)
        · exact Or.inl h
        · exact Or.inl (hextra hef)
        · exact Or.inr ⟨e, he, hef⟩
    · rw [if_neg hany, ih (acc ++ [a])]
      simp only [List.mem_append, List.mem_cons, List.not_mem_nil, or_false]
      constructor
      · rintro (⟨e, (he | rfl), hef⟩ | h)
        · exact Or.inl ⟨e, he, hef⟩
        · exact Or.inr ⟨e, Or.inl rfl, hef⟩
        · obtain ⟨e, he, hef⟩ := h
          exact Or.inr ⟨e, Or.inr he, hef⟩
      · rintro (⟨e, he, hef⟩ | ⟨e, (rfl | he), hef⟩)
        · exact Or.inl ⟨e, Or.inl he, hef⟩
        · exact Or.inl ⟨e, Or.inr rfl, hef⟩
        · exact Or.inr ⟨e, he, hef⟩

lemma exists_undirEq_dedupEdges (es : List (Nat × Nat)) (f : Nat × Nat) :
    (∃ e ∈ dedupEdges es, undirEq e f = true) ↔
    (∃ e ∈ es, undirEq e f = true) := by
  rw [dedupEdges, exists_undirEq_dedupEdgesAux]
  simp

lemma mem_addNode {α : Type} [DecidableEq α] {ns : List α} {v w : α} :
    w ∈ addNode ns v ↔ w ∈ ns ∨ w = v := by
  unfold addNode
  split
  · rename_i h
    constructor
    · exact Or.inl
    · rintro (hw | rfl)
      · exact hw
      · exact h
  · simp [List.mem_append]

lemma mem_foldl_addEdge {α : Type} [DecidableEq α] :
    ∀ (edges : List (α × α)) (start : List α) (w : α),
      w ∈ edges.foldl (fun ns e => addNode (addNode ns e.1) e.2) start ↔
      w ∈ start ∨ ∃ e ∈ edges, w = e.1 ∨ w = e.2 := by
  intro edges
  induction edges with
  | nil => intro start w; simp
  | cons e rest ih =>
    intro start w
    rw [List.foldl_cons, ih]
    simp only [mem_addNode, List.mem_cons]
    constructor
    · rintro (((h | h) | h) | h)
      · exact Or.inl h
      · exact Or.inr ⟨e, Or.inl rfl, Or.inl h⟩
      · exact Or.inr ⟨e, Or.inl rfl, Or.inr h⟩
      · obtain ⟨e', he', hw⟩ := h
        exact Or.inr ⟨e', Or.inr he', hw⟩
    · rintro (h | ⟨e', (rfl | he'), hw⟩)
      · exact Or.inl (Or.inl (Or.inl h))
      · rcases hw with h | h
        · exact Or.inl (Or.inl (Or.inr h))
        · exact Or.inl (Or.inr h)
      · exact Or.inr ⟨e', he', hw⟩

lemma mem_foldl_addNode {α : Type} [DecidableEq α] :
    ∀ (vs start : List α) (w : α),
      w ∈ vs.foldl addNode start ↔ w ∈ start ∨ w ∈ vs := by
  intro vs
  induction vs with
  | nil => intro start w; simp
  | cons v rest ih =>
    intro start w
    rw [List.foldl_cons, ih]
    simp only [mem_addNode, List.mem_cons]
    tauto

lemma mem_nxNodes {α : Type} [DecidableEq α] (nodes : List α)
    (edges : List (α × α)) (w : α) :
    w ∈ nxNodes nodes edges ↔ w ∈ nodes ∨ ∃ e ∈ edges, w = e.1 ∨ w = e.2 := by
  rw [nxNodes, mem_foldl_addEdge, mem_foldl_addNode]
  simp

/-! ### C7 -/

/-- C7 (amended): `get_snapshot_graph` never fails.  For `t` in
`[0, lifetime-1]` it returns the graph on `vertices` (plus edge
endpoints, as `nx` adds them) whose undirected edge set is exactly
`snapshots[t]`; for `t` outside that range it silently returns the
edgeless graph on `vertices`. -/
theorem C7_snapshot_graph (g : TemporalGraph) (t : Int) :
    ((0 ≤ t ∧ t < (g.lifetime : Int)) →
      (∀ f, (∃ e ∈ (g.get_snapshot_graph t).edges, undirEq e f = true) ↔
            (∃ e ∈ g.snapshots.getD t.toNat [], undirEq e f = true))
      ∧ (∀ w, w ∈ (g.get_snapshot_graph t).nodes ↔
            (w ∈ g.vertices ∨
              ∃ e ∈ g.snapshots.getD t.toNat [], w = e.1 ∨ w = e.2)))
    ∧ (¬(0 ≤ t ∧ t < (g.lifetime : Int)) →
      (g.get_snapshot_graph t).edges = []
      ∧ ∀ w, w ∈ (g.get_snapshot_graph t).nodes ↔ w ∈ g.vertices) := by
  constructor
  · intro hin
    rw [TemporalGraph.get_snapshot_graph, if_pos hin]
    exact ⟨fun f => exists_undirEq_dedupEdges _ f, fun w => mem_nxNodes _ _ w⟩
  · intro hout
    rw [TemporalGraph.get_snapshot_graph, if_neg hout]
    refine ⟨rfl, fun w => ?_⟩
    rw [mem_nxNodes]
    simp

/-- Witness for C7: a node-membership instance in the in-range branch. -/
theorem C7_snapshot_graph_witness :
    (0:Nat) ∈ ((TemporalGraph.mk [0,1] [[(0,1)]]).get_snapshot_graph 0).nodes :=
  (((C7_snapshot_graph (TemporalGraph.mk [0,1] [[(0,1)]]) 0).1
      ⟨by decide, by decide⟩).2 0).mpr (Or.inl (by decide))

/-- Counterexample to C7 as stated: at the out-of-range index `t = 5` the
source does not raise; it returns the edgeless graph on the vertex list. -/
theorem C7_snapshot_graph_counterexample :
    (TemporalGraph.mk [0,1] [[(0,1)]]).get_snapshot_graph 5 =
      { nodes := [0,1], edges := [] } := rfl

/-! ### C9 -/

lemma mem_foldl_insert_minmax :
    ∀ (es : List (Nat × Nat)) (s : Finset (Nat × Nat))
      (p : Nat × Nat),
      p ∈ es.foldl (fun s e => insert (min e.1 e.2, max e.1 e.2) s) s ↔
      p ∈ s ∨ ∃ e ∈ es, p = (min e.1 e.2, max e.1 e.2) := by
  intro es
  induction es with
  | nil => intro s p; simp
  | cons e rest ih =>
    intro s p
    rw [List.foldl_cons, ih]
    simp only [Finset.mem_insert, List.mem_cons]
    constructor
    · rintro ((h | h) | h)
      · exact Or.inr ⟨e, Or.inl rfl, h⟩
      · exact Or.inl h
      · obtain ⟨e', he', hp⟩ := h
        exact Or.inr ⟨e', Or.inr he', hp⟩
    · rintro (h | ⟨e', (rfl | he'), hp⟩)
      · exact Or.inl (Or.inr h)
      · exact Or.inl (Or.inl hp)
      · exact Or.inr ⟨e', he', hp⟩

lemma mem_union_graph_edges (g : TemporalGraph) (p : Nat × Nat) :
    p ∈ g.union_graph_edges ↔
      ∃ es ∈ g.snapshots, ∃ e ∈ es, p = (min e.1 e.2, max e.1 e.2) := by
  rw [TemporalGraph.union_graph_edges]
  have main : ∀ (sls : List (List (Nat × Nat)))
      (s : Finset (Nat × Nat)),
      p ∈ sls.foldl
        (fun s es => es.foldl (fun s e => insert (min e.1 e.2, max e.1 e.2) s) s) s
      ↔ p ∈ s ∨ ∃ es ∈ sls, ∃ e ∈ es, p = (min e.1 e.2, max e.1 e.2) := by
    intro sls
    induction sls with
    | nil => intro s; simp
    | cons es rest ih =>
      intro s
      rw [List.foldl_cons, ih, mem_foldl_insert_minmax]
      simp only [List.mem_cons]
      constructor
      · rintro ((h | h) | h)
        · exact Or.inl h
        · obtain ⟨e, he, hp⟩ := h
          exact Or.inr ⟨es, Or.inl rfl, e, he, hp⟩
        · obtain ⟨es', hes', q⟩ := h
          exact Or.inr ⟨es', Or.inr hes', q⟩
      · rintro (h | ⟨es', (rfl | hes'), q⟩)
        · exact Or.inl (Or.inl h)
        · exact Or.inl (Or.inr q)
        · exact Or.inr ⟨es', hes', q⟩
  rw [main]
  simp

/-- C9: a pair belongs to `union_graph_edges` (a set, hence containing
each element exactly once) iff its endpoints are in canonical sorted
order and some snapshot holds that undirected edge in either
orientation; repeated or reversed occurrences therefore collapse to the
single canonical element. -/
theorem C9_union_edges (g : TemporalGraph) (p : Nat × Nat) :
    p ∈ g.union_graph_edges ↔
      (p.1 ≤ p.2 ∧ ∃ es ∈ g.snapshots, ∃ e ∈ es, undirEq e p = true) := by
  rw [mem_union_graph_edges]
  obtain ⟨p1, p2⟩ := p
  constructor
  · rintro ⟨es, hes, e, he, hp⟩
    obtain ⟨u, v⟩ := e
    rw [Prod.mk.injEq] at hp
    dsimp only at hp
    refine ⟨by dsimp only; omega, es, hes, (u, v), he, ?_⟩
    rw [undirEq_iff]
    dsimp only
    omega
  · rintro ⟨hle, es, hes, e, he, hud⟩
    obtain ⟨u, v⟩ := e
    rw [undirEq_iff] at hud
    dsimp only at hud hle
    refine ⟨es, hes, (u, v), he, ?_⟩
    rw [Prod.mk.injEq]
    dsimp only
    omega

/-! ### Twin-detection helpers -/

lemma mem_nbrSet :
    ∀ (es : List (Nat × Nat)) (u w : Nat),
      w ∈ nbrSet es u ↔ ∃ e ∈ es, undirEq e (u, w) = true := by
  intro es
  induction es with
  | nil => intro u w; simp [nbrSet]
  | cons e rest ih =>
    intro u w
    obtain ⟨a, b⟩ := e
    have hstep : nbrSet ((a, b) :: rest) u =
        (if a = u then insert b (nbrSet rest u)
         else if b = u then insert a (nbrSet rest u) else nbrSet rest u) := rfl
    rw [hstep]
    have hud : undirEq (a, b) (u, w) = true ↔
        (a = u ∧ b = w) ∨ (a = w ∧ b = u) := by
      rw [undirEq_iff]
    constructor
    · intro h
      by_cases h1 : a = u
      · rw [if_pos h1] at h
        rcases Finset.mem_insert.mp h with h2 | h'
        · exact ⟨(a, b), List.mem_cons_self _ _, hud.mpr (Or.inl ⟨h1, h2.symm⟩)⟩
        · obtain ⟨f, hf, hq⟩ := (ih u w).mp h'
          exact ⟨f, List.mem_cons_of_mem _ hf, hq⟩
      · by_cases h2 : b = u
        · rw [if_neg h1, if_pos h2] at h
          rcases Finset.mem_insert.mp h with h3 | h'
          · exact ⟨(a, b), List.mem_cons_self _ _, hud.mpr (Or.inr ⟨h3.symm, h2⟩)⟩
          · obtain ⟨f, hf, hq⟩ := (ih u w).mp h'
            exact ⟨f, List.mem_cons_of_mem _ hf, hq⟩
        · rw [if_neg h1, if_neg h2] at h
          obtain ⟨f, hf, hq⟩ := (ih u w).mp h
          exact ⟨f, List.mem_cons_of_mem _ hf, hq⟩
    · rintro ⟨f, hf, hq⟩
      rcases List.mem_cons.mp hf with rfl | hf'
      · rcases hud.mp hq with ⟨hau, hbw⟩ | ⟨haw, hbu⟩
        · rw [if_pos hau]
          exact Finset.mem_insert.mpr (Or.inl hbw.symm)
        · by_cases h1 : a = u
          · rw [if_pos h1]
            exact Finset.mem_insert.mpr (Or.inl (by omega))
          · rw [if_neg h1, if_pos hbu]
            exact Finset.mem_insert.mpr (Or.inl haw.symm)
      · have hw : w ∈ nbrSet rest u := (ih u w).mpr ⟨f, hf', hq⟩
        by_cases h1 : a = u
        · rw [if_pos h1]
          exact Finset.mem_insert_of_mem hw
        · by_cases h2 : b = u
          · rw [if_neg h1, if_pos h2]
            exact Finset.mem_insert_of_mem hw
          · rw [if_neg h1, if_neg h2]
            exact hw

lemma snapNbrs_mem_of_lt {g : TemporalGraph} {t : Nat} (ht : t < g.lifetime)
    (u w : Nat) :
    w ∈ g.snapNbrs t u ↔ ∃ e ∈ g.snapshots.getD t [], undirEq e (u, w) = true := by
  rw [TemporalGraph.snapNbrs, get_snapshot_edges_of_lt ht, mem_nbrSet,
    exists_undirEq_dedupEdges]

lemma isTwinPair_iff {g : TemporalGraph} {u v : Nat} :
    g.isTwinPair u v = true ↔
      ∀ t < g.lifetime, g.snapNbrs t u = g.snapNbrs t v := by
  simp [TemporalGraph.isTwinPair, List.all_eq_true, List.mem_range]

lemma mem_find_eternal_twins {g : TemporalGraph} {u v : Nat} :
    (u, v) ∈ g.find_eternal_twins ↔
      (u, v) ∈ combinations2 g.vertices ∧ g.isTwinPair u v = true := by
  simp [TemporalGraph.find_eternal_twins, List.mem_filter]

lemma combinations2_subset {α : Type} :
    ∀ {l : List α} {u v : α}, (u, v) ∈ combinations2 l → u ∈ l ∧ v ∈ l := by
  intro l
  induction l with
  | nil => intro u v h; simp [combinations2] at h
  | cons x xs ih =>
    intro u v h
    simp only [combinations2, List.mem_append, List.mem_map] at h
    rcases h with ⟨y, hy, heq⟩ | h
    · obtain ⟨rfl, rfl⟩ : x = u ∧ y = v := by simpa [Prod.ext_iff] using heq
      exact ⟨by simp, by simp [hy]⟩
    · obtain ⟨hu, hv⟩ := ih h
      exact ⟨List.mem_cons_of_mem _ hu, List.mem_cons_of_mem _ hv⟩

lemma combinations2_or {α : Type} :
    ∀ {l : List α}, l.Nodup → ∀ {u v : α}, u ≠ v → u ∈ l → v ∈ l →
      (u, v) ∈ combinations2 l ∨ (v, u) ∈ combinations2 l := by
  intro l
  induction l with
  | nil => intro _ u v _ h; simp at h
  | cons x xs ih =>
    intro hnd u v hne hu hv
    rcases List.mem_cons.mp hu with rfl | hu'
    · have hv' : v ∈ xs := by
        rcases List.mem_cons.mp hv with rfl | h
        · exact absurd rfl hne
        · exact h
      left
      simp only [combinations2, List.mem_append, List.mem_map]
      exact Or.inl ⟨v, hv', rfl⟩
    · rcases List.mem_cons.mp hv with rfl | hv'
      · right
        simp only [combinations2, List.mem_append, List.mem_map]
        exact Or.inl ⟨u, hu', rfl⟩
      · rcases ih hnd.of_cons hne hu' hv' with h | h
        · left
          simp only [combinations2, List.mem_append]
          exact Or.inr h
        · right
          simp only [combinations2, List.mem_append]
          exact Or.inr h

lemma combinations2_asymm {α : Type} :
    ∀ {l : List α}, l.Nodup → ∀ {u v : α},
      (u, v) ∈ combinations2 l → (v, u) ∉ combinations2 l := by
  intro l
  induction l with
  | nil => intro _ u v h; simp [combinations2] at h
  | cons x xs ih =>
    intro hnd u v h1 h2
    have hx : x ∉ xs := (List.nodup_cons.mp hnd).1
    simp only [combinations2, List.mem_append, List.mem_map] at h1 h2
    rcases h1 with ⟨y, hy, heq⟩ | h1
    · obtain ⟨hxu, hyv⟩ : x = u ∧ y = v := by simpa [Prod.ext_iff] using heq
      rcases h2 with ⟨z, hz, heq2⟩ | h2
      · obtain ⟨hxv, hzu⟩ : x = v ∧ z = u := by simpa [Prod.ext_iff] using heq2
        apply hx
        rw [show x = y from hxv.trans hyv.symm]
        exact hy
      · apply hx
        rw [hxu]
        exact (combinations2_subset h2).2
    · rcases h2 with ⟨z, hz, heq2⟩ | h2
      · obtain ⟨hxv, hzu⟩ : x = v ∧ z = u := by simpa [Prod.ext_iff] using heq2
        apply hx
        rw [hxv]
        exact (combinations2_subset h1).2
      · exact ih (List.nodup_cons.mp hnd).2 h1 h2

lemma combinations2_nodup {α : Type} :
    ∀ {l : List α}, l.Nodup → (combinations2 l).Nodup := by
  intro l
  induction l with
  | nil => intro _; simp [combinations2]
  | cons x xs ih =>
    intro hnd
    obtain ⟨hx, hxs⟩ := List.nodup_cons.mp hnd
    rw [combinations2]
    refine List.Nodup.append ?_ (ih hxs) ?_
    · exact hxs.map (fun a b hab => by simpa [Prod.ext_iff] using hab)
    · intro p hp hp'
      obtain ⟨y, hy, rfl⟩ := List.mem_map.mp hp
      exact hx (combinations2_subset hp').1

lemma combinations2_length {α : Type} :
    ∀ (l : List α), (combinations2 l).length = l.length.choose 2 := by
  intro l
  induction l with
  | nil => simp [combinations2]
  | cons x xs ih =>
    rw [combinations2, List.length_append, List.length_map, ih,
      List.length_cons]
    have : (xs.length + 1).choose 2 = xs.length.choose 1 + xs.length.choose 2 :=
      Nat.choose_succ_succ xs.length 1
    rw [this, Nat.choose_one_right]

/-! ### C3 -/

/-- C3: on a duplicate-free vertex list, an unordered pair of distinct
vertices appears in `find_eternal_twins` (in one of its two
orientations) iff the open neighbourhoods of the two vertices agree at
every snapshot; the result lists each unordered pair at most once (no
duplicates, never both orientations); when the lifetime is `0` every one
of the `C(|V|, 2)` pairs is returned (vacuous truth). -/
theorem C3_eternal_twins (g : TemporalGraph) (hnd : g.vertices.Nodup) :
    (∀ u v, u ≠ v → u ∈ g.vertices → v ∈ g.vertices →
      (((u, v) ∈ g.find_eternal_twins ∨ (v, u) ∈ g.find_eternal_twins) ↔
        ∀ t < g.lifetime, g.snapNbrs t u = g.snapNbrs t v))
    ∧ g.find_eternal_twins.Nodup
    ∧ (∀ u v, (u, v) ∈ g.find_eternal_twins →
        (v, u) ∉ g.find_eternal_twins)
    ∧ (g.lifetime = 0 →
        g.find_eternal_twins.length = g.vertices.length.choose 2) := by
  refine ⟨?_, ?_, ?_, ?_⟩
  · intro u v hne hu hv
    constructor
    · rintro (h | h)
      · exact isTwinPair_iff.mp (mem_find_eternal_twins.mp h).2
      · intro t ht
        exact (isTwinPair_iff.mp (mem_find_eternal_twins.mp h).2 t ht).symm
    · intro hcond
      rcases combinations2_or hnd hne hu hv with h | h
      · exact Or.inl (mem_find_eternal_twins.mpr ⟨h, isTwinPair_iff.mpr hcond⟩)
      · exact Or.inr (mem_find_eternal_twins.mpr
          ⟨h, isTwinPair_iff.mpr (fun t ht => (hcond t ht).symm)⟩)
  · exact (combinations2_nodup hnd).filter _
  · intro u v h1 h2
    exact combinations2_asymm hnd (mem_find_eternal_twins.mp h1).1
      (mem_find_eternal_twins.mp h2).1
  · intro h0
    rw [TemporalGraph.find_eternal_twins, List.filter_eq_self.mpr ?_,
      combinations2_length]
    intro p hp
    simp [TemporalGraph.isTwinPair, TemporalGraph.lifetime,
      List.length_eq_zero.mp h0]

/-- Witness for C3 at the spec's scenario 3: the always-isolated pair
`(0, 1)` is reported as an eternal twin pair. -/
theorem C3_eternal_twins_witness :
    ((0:Nat), (1:Nat)) ∈
        (TemporalGraph.mk [0,1] [[], []]).find_eternal_twins ∨
      ((1:Nat), (0:Nat)) ∈
        (TemporalGraph.mk [0,1] [[], []]).find_eternal_twins :=
  (((C3_eternal_twins (TemporalGraph.mk [0,1] [[], []]) (by decide)).1
      0 1 (by decide) (by decide) (by decide)).mpr (by decide))

/-! ### C4 -/

/-- C4: on a temporal graph whose snapshot edges join two distinct listed
vertices (simple graphs: no self-loops), two vertices adjacent in at
least one snapshot are never reported by `find_eternal_twins`, in either
orientation. -/
theorem C4_adjacent_never_twins (g : TemporalGraph) (u v t : Nat)
    (hwf : ∀ es ∈ g.snapshots, ∀ e ∈ es,
      (e.1 ∈ g.vertices ∧ e.2 ∈ g.vertices) ∧ e.1 ≠ e.2)
    (ht : t < g.lifetime)
    (hadj : (u, v) ∈ g.snapshots.getD t [] ∨ (v, u) ∈ g.snapshots.getD t []) :
    (u, v) ∉ g.find_eternal_twins ∧ (v, u) ∉ g.find_eternal_twins := by
  have hsnap := getD_mem_snapshots ht
  have key : ∀ a b : Nat,
      ((a, b) ∈ g.snapshots.getD t [] ∨ (b, a) ∈ g.snapshots.getD t []) →
      (a, b) ∉ g.find_eternal_twins := by
    intro a b hab hmem
    have heq := isTwinPair_iff.mp (mem_find_eternal_twins.mp hmem).2 t ht
    have hb : b ∈ g.snapNbrs t a := by
      rw [snapNbrs_mem_of_lt ht]
      rcases hab with h | h
      · exact ⟨(a, b), h, by rw [undirEq_iff]; dsimp only; omega⟩
      · exact ⟨(b, a), h, by rw [undirEq_iff]; dsimp only; omega⟩
    rw [heq, snapNbrs_mem_of_lt ht] at hb
    obtain ⟨e, he, hud⟩ := hb
    have hne := (hwf _ hsnap e he).2
    rw [undirEq_iff] at hud
    dsimp only at hud
    omega
  refine ⟨key u v hadj, key v u ?_⟩
  tauto

/-- Witness for C4: in scenario 1's graph, the adjacent pair `(0, 1)` is
excluded from the twin list. -/
theorem C4_adjacent_never_twins_witness :
    ((0:Nat), (1:Nat)) ∉
        (TemporalGraph.mk [0,1,2] [[(0,1)], [(1,2)]]).find_eternal_twins
    ∧ ((1:Nat), (0:Nat)) ∉
        (TemporalGraph.mk [0,1,2] [[(0,1)], [(1,2)]]).find_eternal_twins :=
  C4_adjacent_never_twins (TemporalGraph.mk [0,1,2] [[(0,1)], [(1,2)]]) 0 1 0
    (by decide) (by decide) (Or.inl (by decide))

/-! ### Tree-width heuristic helpers -/

lemma foldl_max_le_init : ∀ (xs : List Int) (a : Int), a ≤ xs.foldl max a := by
  intro xs
  induction xs with
  | nil => intro a; simp
  | cons x s ih => intro a; exact le_trans (le_max_left a x) (ih (max a x))

lemma mem_le_foldl_max : ∀ (xs : List Int) (a x : Int), x ∈ xs → x ≤ xs.foldl max a := by
  intro xs
  induction xs with
  | nil => intro a x hx; simp at hx
  | cons y s ih =>
    intro a x hx
    rcases List.mem_cons.mp hx with rfl | hx'
    · exact le_trans (le_max_right a x) (foldl_max_le_init s (max a x))
    · exact ih (max a y) x hx'

lemma foldl_max_mem : ∀ (xs : List Int) (a : Int),
    xs.foldl max a = a ∨ xs.foldl max a ∈ xs := by
  intro xs
  induction xs with
  | nil => intro a; exact Or.inl rfl
  | cons y s ih =>
    intro a
    rcases ih (max a y) with h | h
    · rw [List.foldl_cons, h]
      rcases le_total a y with hay | hya
      · exact Or.inr (by simp [max_eq_right hay])
      · exact Or.inl (max_eq_left hya)
    · exact Or.inr (List.mem_cons_of_mem _ h)

lemma maxOr0_le {l : List Int} {x : Int} (hx : x ∈ l) : x ≤ maxOr0 l := by
  cases l with
  | nil => simp at hx
  | cons y s =>
    rcases List.mem_cons.mp hx with rfl | hx'
    · exact foldl_max_le_init s x
    · exact mem_le_foldl_max s y x hx'

lemma maxOr0_mem {l : List Int} (h : l ≠ []) : maxOr0 l ∈ l := by
  cases l with
  | nil => exact absurd rfl h
  | cons y s =>
    rcases foldl_max_mem s y with h' | h'
    · rw [maxOr0, h']
      simp
    · exact List.mem_cons_of_mem _ (by rw [maxOr0]; exact h')

lemma le_twfold {α : Type} [DecidableEq α] :
    ∀ (xs : List (α × Finset α)) (a : Int),
      a ≤ xs.foldl (fun tw p => max tw (((insert p.1 p.2).card : Int) - 1)) a := by
  intro xs
  induction xs with
  | nil => intro a; simp
  | cons p s ih =>
    intro a
    exact le_trans (le_max_left a _) (ih _)

lemma twfold_const {α : Type} [DecidableEq α] :
    ∀ (xs : List (α × Finset α)) (a : Int),
      (∀ p ∈ xs, ((insert p.1 p.2).card : Int) - 1 ≤ a) →
      xs.foldl (fun tw p => max tw (((insert p.1 p.2).card : Int) - 1)) a = a := by
  intro xs
  induction xs with
  | nil => intro a _; rfl
  | cons p s ih =>
    intro a hall
    rw [List.foldl_cons, max_eq_left (hall p (by simp))]
    exact ih a (fun q hq => hall q (List.mem_cons_of_mem _ hq))

lemma elimLoop_stack_nil {α : Type} [DecidableEq α] :
    ∀ (fuel : Nat) (adj : List (α × Finset α)),
      (elimLoop fuel adj).1 = [] → (elimLoop fuel adj).2 = adj := by
  intro fuel adj
  cases fuel with
  | zero => intro _; rfl
  | succ n =>
    rcases hpick : pickMinDegree adj with _ | ⟨v, nbrs⟩ <;>
      simp [elimLoop, hpick]

lemma foldl_pick_empty {α : Type} [DecidableEq α] :
    ∀ (rest : List (α × Finset α)) (a : α × Finset α),
      a.2 = (∅ : Finset α) →
      (∀ p ∈ rest, p.2 = (∅ : Finset α)) →
      rest.foldl (fun b p => if p.2.card < b.2.card then p else b) a = a := by
  intro rest
  induction rest with
  | nil => intro a _ _; rfl
  | cons p s ih =>
    intro a ha hall
    rw [List.foldl_cons]
    have hp : p.2 = (∅ : Finset α) := hall p (by simp)
    rw [if_neg (by simp [hp, ha])]
    exact ih a ha (fun q hq => hall q (List.mem_cons_of_mem _ hq))

lemma addNode_nodup {α : Type} [DecidableEq α] {ns : List α} (h : ns.Nodup)
    (v : α) : (addNode ns v).Nodup := by
  unfold addNode
  split
  · exact h
  · rename_i hv
    exact List.Nodup.append h (List.nodup_singleton v)
      (by simpa [List.disjoint_singleton] using hv)

lemma foldl_addNode_nodup {α : Type} [DecidableEq α] :
    ∀ (vs start : List α), start.Nodup → (vs.foldl addNode start).Nodup := by
  intro vs
  induction vs with
  | nil => intro s h; exact h
  | cons v rest ih => intro s h; exact ih _ (addNode_nodup h v)

lemma nxNodes_nodup {α : Type} [DecidableEq α] (nodes : List α)
    (edges : List (α × α)) : (nxNodes nodes edges).Nodup := by
  rw [nxNodes]
  have base : (nodes.foldl addNode []).Nodup :=
    foldl_addNode_nodup nodes [] (by simp)
  have main : ∀ (es : List (α × α)) (start : List α), start.Nodup →
      (es.foldl (fun ns e => addNode (addNode ns e.1) e.2) start).Nodup := by
    intro es
    induction es with
    | nil => intro s h; exact h
    | cons e rest ih =>
      intro s h
      exact ih _ (addNode_nodup (addNode_nodup h e.1) e.2)
  exact main edges _ base

lemma nxNodes_ne_nil {α : Type} [DecidableEq α] {nodes : List α}
    (h : nodes ≠ []) (edges : List (α × α)) : nxNodes nodes edges ≠ [] := by
  obtain ⟨x, hx⟩ := List.exists_mem_of_ne_nil nodes h
  exact List.ne_nil_of_mem ((mem_nxNodes nodes edges x).mpr (Or.inl hx))

lemma treewidth_min_degree_nonneg {α : Type} [DecidableEq α]
    (nodes : List α) (edges : List (α × α)) (hne : nodes ≠ []) :
    0 ≤ treewidth_min_degree nodes edges := by
  have hadj : mkAdj nodes edges ≠ [] := by
    rw [mkAdj]
    simpa using nxNodes_ne_nil hne edges
  unfold treewidth_min_degree
  rcases hstack : (elimLoop (mkAdj nodes edges).length (mkAdj nodes edges)).1
    with _ | ⟨p, s⟩
  · rw [elimLoop_stack_nil _ _ hstack]
    have hlen : 1 ≤ (mkAdj nodes edges).length := List.length_pos.mpr hadj
    simp only [List.foldl_nil]
    omega
  · rw [List.foldl_cons]
    refine le_trans ?_ (le_twfold s _)
    have hcard : 1 ≤ (insert p.1 p.2).card :=
      Finset.card_pos.mpr ⟨p.1, Finset.mem_insert_self _ _⟩
    have hge : (0:Int) ≤ ((insert p.1 p.2).card : Int) - 1 := by omega
    exact le_trans hge (le_max_right _ _)

lemma elimLoop_all_empty {α : Type} [DecidableEq α] :
    ∀ (fuel : Nat) (adj : List (α × Finset α)),
      adj.length ≤ fuel →
      (∀ p ∈ adj, p.2 = (∅ : Finset α)) →
      (adj.map Prod.fst).Nodup →
      (∀ p ∈ (elimLoop fuel adj).1, p.2 = (∅ : Finset α))
      ∧ (elimLoop fuel adj).2.length = min adj.length 1 := by
  intro fuel
  induction fuel with
  | zero =>
    intro adj hlen hemp hnd
    have hadj : adj = [] := List.length_eq_zero.mp (Nat.le_zero.mp hlen)
    subst hadj
    exact ⟨fun p hp => by simp [elimLoop] at hp, by simp [elimLoop]⟩
  | succ n ih =>
    intro adj hlen hemp hnd
    cases adj with
    | nil =>
      refine ⟨fun p hp => ?_, ?_⟩
      · simp [elimLoop, pickMinDegree] at hp
      · simp [elimLoop, pickMinDegree]
    | cons a rest =>
      have ha : a.2 = ∅ := hemp a (by simp)
      have hbest : rest.foldl (fun b p => if p.2.card < b.2.card then p else b) a = a :=
        foldl_pick_empty rest a ha (fun q hq => hemp q (List.mem_cons_of_mem _ hq))
      cases rest with
      | nil =>
        have hpick : pickMinDegree [a] = none := by
          rw [pickMinDegree]
          simp [ha]
        refine ⟨fun p hp => ?_, ?_⟩
        · simp [elimLoop, hpick] at hp
        · simp [elimLoop, hpick]
      | cons b rest2 =>
        have hpick : pickMinDegree (a :: b :: rest2) = some a := by
          rw [pickMinDegree]
          rw [hbest, if_neg (by simp [ha])]
        have hanotin : ∀ p ∈ b :: rest2, p.1 ≠ a.1 := by
          intro p hp heq
          have hmem : a.1 ∈ (b :: rest2).map Prod.fst :=
            List.mem_map.mpr ⟨p, hp, heq⟩
          rw [List.map_cons, List.nodup_cons] at hnd
          exact hnd.1 (by simpa using hmem)
        have hfilter :
            List.filter (fun p => if p.1 = a.1 then false else true)
              (a :: b :: rest2) = b :: rest2 := by
          rw [List.filter_cons]
          have hcond : (if a.1 = a.1 then false else true) = false := by simp
          rw [hcond]
          simp only [Bool.false_eq_true, if_false]
          exact List.filter_eq_self.mpr
            (fun p hp => by simp [hanotin p hp])
        have helim : eliminate (a :: b :: rest2) a.1 a.2 = b :: rest2 := by
          rw [eliminate, hfilter, ha]
          simp
        have hnd2 : ((b :: rest2).map Prod.fst).Nodup := by
          rw [List.map_cons, List.nodup_cons] at hnd
          exact hnd.2
        obtain ⟨ih1, ih2⟩ := ih (b :: rest2)
          (by simp at hlen ⊢; omega)
          (fun p hp => hemp p (List.mem_cons_of_mem _ hp)) hnd2
        have hstep : elimLoop (n + 1) (a :: b :: rest2) =
            ((a.1, a.2) :: (elimLoop n (b :: rest2)).1,
              (elimLoop n (b :: rest2)).2) := by
          simp [elimLoop, hpick, helim]
        refine ⟨fun p hp => ?_, ?_⟩
        · rw [hstep] at hp
          rcases List.mem_cons.mp hp with rfl | hp'
          · exact ha
          · exact ih1 p hp'
        · rw [hstep]
          dsimp only
          rw [ih2]
          simp only [List.length_cons]
          omega

lemma treewidth_min_degree_no_edges {α : Type} [DecidableEq α]
    (nodes : List α) (hne : nodes ≠ []) :
    treewidth_min_degree nodes ([] : List (α × α)) = 0 := by
  have hadj : mkAdj nodes ([] : List (α × α)) =
      (nxNodes nodes []).map (fun n => (n, (∅ : Finset α))) := by
    rw [mkAdj]
    apply List.map_congr_left
    intro n _
    simp [nbrSet]
  have hnsne : (nxNodes nodes ([] : List (α × α))).map
      (fun n => (n, (∅ : Finset α))) ≠ [] := by
    simpa using nxNodes_ne_nil hne []
  have hempty : ∀ p ∈ (nxNodes nodes ([] : List (α × α))).map
      (fun n => (n, (∅ : Finset α))), p.2 = (∅ : Finset α) := by
    intro p hp
    obtain ⟨n, _, rfl⟩ := List.mem_map.mp hp
    rfl
  have hkeys : (((nxNodes nodes ([] : List (α × α))).map
      (fun n => (n, (∅ : Finset α)))).map Prod.fst).Nodup := by
    rw [List.map_map]
    have hcomp : (Prod.fst ∘ fun n : α => (n, (∅ : Finset α))) =
        fun n : α => n := rfl
    rw [hcomp, List.map_id']
    exact nxNodes_nodup nodes ([] : List (α × α))
  obtain ⟨h1, h2⟩ := elimLoop_all_empty
    ((nxNodes nodes ([] : List (α × α))).map (fun n => (n, (∅ : Finset α)))).length
    ((nxNodes nodes ([] : List (α × α))).map (fun n => (n, (∅ : Finset α))))
    le_rfl hempty hkeys
  unfold treewidth_min_degree
  rw [hadj]
  have hlen1 : (elimLoop
      ((nxNodes nodes ([] : List (α × α))).map (fun n => (n, (∅ : Finset α)))).length
      ((nxNodes nodes ([] : List (α × α))).map (fun n => (n, (∅ : Finset α))))).2.length
      = 1 := by
    rw [h2]
    have : 0 < ((nxNodes nodes ([] : List (α × α))).map
        (fun n => (n, (∅ : Finset α)))).length := List.length_pos.mpr hnsne
    omega
  rw [hlen1]
  refine (twfold_const _ _ ?_).trans (by norm_num)
  intro p hp
  rw [h1 p hp]
  simp

lemma treewidth_min_degree_ge_neg_one {α : Type} [DecidableEq α]
    (nodes : List α) (edges : List (α × α)) :
    -1 ≤ treewidth_min_degree nodes edges := by
  unfold treewidth_min_degree
  refine le_trans ?_ (le_twfold _ _)
  have h0 : (0:Int) ≤
      ((elimLoop (mkAdj nodes edges).length (mkAdj nodes edges)).2.length : Int) :=
    Int.natCast_nonneg _
  omega

lemma tree_width_of_differential_ok {g : TemporalGraph} {t delta : Int}
    (h : ¬(t < 0 ∨ delta < 1 ∨ (g.lifetime : Int) ≤ t + delta - 1)) :
    g.tree_width_of_differential t delta =
      .ok (g.twCore t.toNat delta.toNat) := by
  rw [TemporalGraph.tree_width_of_differential,
    TemporalGraph.compute_differential, if_neg h]
  rfl

lemma collectTW_ok {g : TemporalGraph} {delta : Int} :
    ∀ ts : List Nat,
      (∀ x ∈ ts,
        ¬((x:Int) < 0 ∨ delta < 1 ∨ (g.lifetime : Int) ≤ (x:Int) + delta - 1)) →
      g.collectTW delta ts =
        .ok (ts.map (fun x => (x, g.twCore x delta.toNat))) := by
  intro ts
  induction ts with
  | nil => intro _; rfl
  | cons t ts ih =>
    intro hall
    have h1 := tree_width_of_differential_ok (hall t (by simp))
    rw [Int.toNat_natCast] at h1
    have h2 := ih (fun x hx => hall x (List.mem_cons_of_mem _ hx))
    simp only [TemporalGraph.collectTW, h1, h2, List.map_cons]

/-! ### C6 -/

/-- C6: `differential_tree_width(delta)` fails with `InvalidDelta`
(carrying `delta` and the lifetime) exactly off the range `[1, lifetime]`;
on it, the per-`t` series has exactly `lifetime - delta + 1` entries,
entry `i` pairs `i` with the value of `tree_width_of_differential(i, delta)`,
and `dtw` is the maximum over the series (`0` for an empty series). -/
theorem C6_differential_tree_width (g : TemporalGraph) (delta : Int) :
    ((delta < 1 ∨ (g.lifetime : Int) < delta) →
      g.differential_tree_width delta =
        .error (.invalidDelta delta g.lifetime))
    ∧ (1 ≤ delta → delta ≤ (g.lifetime : Int) →
      ∃ r, g.differential_tree_width delta = .ok r
        ∧ r.per_t.length = g.lifetime - delta.toNat + 1
        ∧ (∀ i, i < r.per_t.length → ∃ w, r.per_t.getD i (0, 0) = (i, w)
            ∧ g.tree_width_of_differential (i : Int) delta = .ok w)
        ∧ (r.per_t = [] → r.dtw = 0)
        ∧ (∀ p ∈ r.per_t, p.2 ≤ r.dtw)
        ∧ (r.per_t ≠ [] → ∃ p ∈ r.per_t, p.2 = r.dtw)) := by
  constructor
  · intro h
    rw [TemporalGraph.differential_tree_width, if_pos h]
  · intro hd1 hd2
    have hcond : ¬(delta < 1 ∨ (g.lifetime : Int) < delta) := by omega
    have hvalid : ∀ x ∈ List.range (g.lifetime - delta.toNat + 1),
        ¬((x:Int) < 0 ∨ delta < 1 ∨ (g.lifetime : Int) ≤ (x:Int) + delta - 1) := by
      intro x hx
      have hxlt := List.mem_range.mp hx
      omega
    have hcoll := collectTW_ok (List.range (g.lifetime - delta.toNat + 1)) hvalid
    refine ⟨⟨maxOr0 (((List.range (g.lifetime - delta.toNat + 1)).map
        (fun x => (x, g.twCore x delta.toNat))).map Prod.snd),
      (List.range (g.lifetime - delta.toNat + 1)).map
        (fun x => (x, g.twCore x delta.toNat))⟩, ?_, ?_, ?_, ?_, ?_, ?_⟩
    · rw [TemporalGraph.differential_tree_width, if_neg hcond]
      simp only [hcoll]
    · simp
    · intro i hi
      have hiN : i < g.lifetime - delta.toNat + 1 := by simpa using hi
      refine ⟨g.twCore i delta.toNat, ?_, ?_⟩
      · rw [List.getD_eq_getElem _ _ (by simpa using hi)]
        simp
      · have := tree_width_of_differential_ok (hvalid i (List.mem_range.mpr hiN))
        rwa [Int.toNat_natCast] at this
    · intro hnil
      dsimp only at hnil ⊢
      rw [hnil]
      rfl
    · intro p hp
      dsimp only at hp ⊢
      exact maxOr0_le (List.mem_map_of_mem Prod.snd hp)
    · intro hne
      dsimp only at hne ⊢
      have hmem := maxOr0_mem (l := ((List.range (g.lifetime - delta.toNat + 1)).map
        (fun x => (x, g.twCore x delta.toNat))).map Prod.snd)
        (by simp [hne])
      obtain ⟨p, hp, hps⟩ := List.mem_map.mp hmem
      exact ⟨p, hp, hps⟩

/-- Witness for C6 at `delta = 1` on a one-snapshot graph. -/
theorem C6_differential_tree_width_witness :
    ∃ r, (TemporalGraph.mk [0,1] [[(0,1)]]).differential_tree_width 1 = .ok r
      ∧ r.per_t.length =
          (TemporalGraph.mk [0,1] [[(0,1)]]).lifetime - (1:Int).toNat + 1
      ∧ (∀ i, i < r.per_t.length → ∃ w, r.per_t.getD i (0, 0) = (i, w)
          ∧ (TemporalGraph.mk [0,1] [[(0,1)]]).tree_width_of_differential
              (i : Int) 1 = .ok w)
      ∧ (r.per_t = [] → r.dtw = 0)
      ∧ (∀ p ∈ r.per_t, p.2 ≤ r.dtw)
      ∧ (r.per_t ≠ [] → ∃ p ∈ r.per_t, p.2 = r.dtw) :=
  (C6_differential_tree_width (TemporalGraph.mk [0,1] [[(0,1)]]) 1).2
    (by decide) (by decide)

/-! ### C8 -/

/-- Counterexample to C8 as stated: on the empty vertex set with one
(edgeless) snapshot, the window `(0, 1)` is valid, the differential has
zero edges, yet `tree_width_of_differential` returns `-1` (the heuristic
returns `len(first_bag) - 1 = -1` on the empty expansion), which is
negative and in particular not `0`. -/
theorem C8_treewidth_counterexample :
    (TemporalGraph.mk [] [[]]).tree_width_of_differential 0 1 = .ok (-1)
    ∧ ((-1 : Int) < 0) := ⟨rfl, by decide⟩

/-- C8 (amended): for every valid window, `tree_width_of_differential`
returns a value `w ≥ -1`; when the vertex set is nonempty, `w ≥ 0`, and
if moreover the differential has zero black and zero red edges, `w = 0`
(the original claim's nonnegativity and zero-edge clauses fail only for
the empty vertex set, where the heuristic yields `-1`). -/
theorem C8_treewidth_nonneg (g : TemporalGraph) (t delta : Int)
    (d : Differential) (h : g.compute_differential t delta = .ok d) :
    ∃ w, g.tree_width_of_differential t delta = .ok w
      ∧ -1 ≤ w
      ∧ (g.vertices ≠ [] → 0 ≤ w)
      ∧ (g.vertices ≠ [] → d.black_edges = [] → d.red_edges = [] → w = 0) := by
  obtain ⟨h0, h1, hle, hd⟩ := compute_differential_ok h
  subst hd
  have hnotbad : ¬(t < 0 ∨ delta < 1 ∨ (g.lifetime : Int) ≤ t + delta - 1) := by
    omega
  have hnodes : g.vertices ≠ [] →
      (g.diffCore t.toNat delta.toNat).nodes ≠ [] := by
    intro hvne
    obtain ⟨v, hv⟩ := List.exists_mem_of_ne_nil _ hvne
    exact List.ne_nil_of_mem
      ((diffCore_mem_nodes g _ _ v t.toNat).mpr ⟨hv, le_rfl, by omega⟩)
  refine ⟨g.twCore t.toNat delta.toNat, tree_width_of_differential_ok hnotbad,
    treewidth_min_degree_ge_neg_one _ _, ?_, ?_⟩
  · intro hvne
    exact treewidth_min_degree_nonneg _ _ (hnodes hvne)
  · intro hvne hblack hred
    rw [TemporalGraph.twCore, hblack, hred, List.nil_append]
    exact treewidth_min_degree_no_edges _ (hnodes hvne)

/-- Witness for C8 (amended) on a one-vertex, one-empty-snapshot graph:
the tree-width of the expansion is `0`. -/
theorem C8_treewidth_nonneg_witness :
    ∃ w, (TemporalGraph.mk [0] [[]]).tree_width_of_differential 0 1 = .ok w
      ∧ -1 ≤ w
      ∧ ((TemporalGraph.mk [0] [[]]).vertices ≠ [] → 0 ≤ w)
      ∧ ((TemporalGraph.mk [0] [[]]).vertices ≠ [] →
          (Differential.mk [(0,0)] [] []).black_edges = [] →
          (Differential.mk [(0,0)] [] []).red_edges = [] → w = 0) :=
  C8_treewidth_nonneg (TemporalGraph.mk [0] [[]]) 0 1 ⟨[(0,0)], [], []⟩ rfl

end DerivGraphs
